import Mathlib

/-!
Verification of the `lfchring` consistent-hashing ring.

The public facade (`ring.go`) is embedded directly.  The internal state type
`hashRingState` and its methods (`insert`, `remove`, `fixReplicaOwners`,
`virtualNodeForKey`, `nodesForKey`, `predecessor`, `successor`,
`predecessorNode`, `successorNode`) live in a source file that is not part of
the provided sources; those operations are modelled from the specification,
as marked in the individual doc comments.

Go byte slices are embedded as `List Nat`; `bytes.Compare` becomes the
byte-lexicographic comparison `byteLe`/`byteLt` below.  The caller-supplied
hash function is an opaque `List Nat → List Nat` parameter.  The lock-free
snapshot publication is embedded by explicit state passing: a `HashRing`
operation takes the currently published state and returns the state that is
published afterwards (on error, the state from before the call).
-/

/-- Go byte slices (`[]byte`), embedded as lists of naturals. -/
abbrev Bytes := List Nat

/-- Byte-lexicographic `<=` on byte slices, i.e. `bytes.Compare(x, y) <= 0`:
a strict prefix is smaller, otherwise the first differing byte decides. -/
def byteLe : Bytes → Bytes → Bool
  | [], _ => true
  | _ :: _, [] => false
  | a :: as, b :: bs => if a < b then true else if b < a then false else byteLe as bs

/-- Byte-lexicographic `<` on byte slices, i.e. `bytes.Compare(x, y) < 0`. -/
def byteLt (x y : Bytes) : Bool := !(byteLe y x)

theorem byteLe_refl (x : Bytes) : byteLe x x = true := by
  induction x with
  | nil => rfl
  | cons a as ih => simp [byteLe, ih]

theorem byteLe_total (x y : Bytes) : byteLe x y = true ∨ byteLe y x = true := by
  induction x generalizing y with
  | nil => exact Or.inl rfl
  | cons a as ih =>
    cases y with
    | nil => exact Or.inr rfl
    | cons b bs =>
      by_cases hab : a < b
      · left; simp [byteLe, hab]
      · by_cases hba : b < a
        · right; simp [byteLe, hba, Nat.lt_asymm hba]
        · have he : a = b := Nat.le_antisymm (Nat.le_of_not_lt hba) (Nat.le_of_not_lt hab)
          subst he
          rcases ih bs with h | h
          · left; simp [byteLe, h]
          · right; simp [byteLe, h]

theorem byteLe_trans {x y z : Bytes} (hxy : byteLe x y = true)
    (hyz : byteLe y z = true) : byteLe x z = true := by
  induction x generalizing y z with
  | nil => rfl
  | cons a as ih =>
    cases y with
    | nil => simp [byteLe] at hxy
    | cons b bs =>
      cases z with
      | nil => simp [byteLe] at hyz
      | cons c cs =>
        simp only [byteLe] at hxy hyz ⊢
        by_cases hab : a < b
        · by_cases hbc : b < c
          · simp [Nat.lt_trans hab hbc]
          · by_cases hcb : c < b
            · simp [hbc, hcb] at hyz
            · have : b = c := Nat.le_antisymm (Nat.le_of_not_lt hcb) (Nat.le_of_not_lt hbc)
              subst this
              simp [hab]
        · by_cases hba : b < a
          · simp [hab, hba, byteLe] at hxy
          · have : a = b := Nat.le_antisymm (Nat.le_of_not_lt hba) (Nat.le_of_not_lt hab)
            subst this
            simp only [if_neg hab, if_neg hba] at hxy
            by_cases hbc : a < c
            · simp [hbc]
            · by_cases hcb : c < a
              · simp [hbc, hcb, byteLe] at hyz
              · have : a = c := Nat.le_antisymm (Nat.le_of_not_lt hcb) (Nat.le_of_not_lt hbc)
                subst this
                simp only [if_neg hbc, if_neg hcb] at hxy hyz ⊢
                exact ih hxy hyz

theorem byteLe_antisymm {x y : Bytes} (hxy : byteLe x y = true)
    (hyx : byteLe y x = true) : x = y := by
  induction x generalizing y with
  | nil =>
    cases y with
    | nil => rfl
    | cons b bs => simp [byteLe] at hyx
  | cons a as ih =>
    cases y with
    | nil => simp [byteLe] at hxy
    | cons b bs =>
      simp only [byteLe] at hxy hyx
      by_cases hab : a < b
      · simp [hab, Nat.lt_asymm hab, byteLe] at hyx
      · by_cases hba : b < a
        · simp [hab, hba, byteLe] at hxy
        · have he : a = b := Nat.le_antisymm (Nat.le_of_not_lt hba) (Nat.le_of_not_lt hab)
          subst he
          simp only [if_neg hab] at hxy hyx
          exact congrArg (a :: ·) (ih hxy hyx)

/-- Ring order on byte slices as a proposition, for sortedness statements. -/
def bLe (x y : Bytes) : Prop := byteLe x y = true

instance : DecidableRel bLe := fun x y => decEq (byteLe x y) true

instance : IsTotal Bytes bLe := ⟨fun x y => byteLe_total x y⟩

instance : IsTrans Bytes bLe := ⟨fun _ _ _ => byteLe_trans⟩

instance : IsAntisymm Bytes bLe := ⟨fun _ _ => byteLe_antisymm⟩

instance : IsRefl Bytes bLe := ⟨fun x => byteLe_refl x⟩

/-- A distinct node in the ring (`type Node string` in `ring.go`). -/
abbrev Node := String

/-- A virtual node (`type VirtualNode struct` in `ring.go`): its `name` is its
position on the ring, `node` the owning distinct node, `vnid` its sequence
number (a `uint16` in the source). -/
structure VirtualNode where
  name : Bytes
  node : Node
  vnid : Nat
deriving DecidableEq

instance : Inhabited VirtualNode := ⟨⟨[], "", 0⟩⟩

/-- Ring order on virtual nodes: comparison of their names. -/
def vnLe (a b : VirtualNode) : Prop := bLe a.name b.name

instance : DecidableRel vnLe := fun a b => decEq (byteLe a.name b.name) true

instance : IsTotal VirtualNode vnLe := ⟨fun a b => byteLe_total a.name b.name⟩

instance : IsTrans VirtualNode vnLe := ⟨fun _ _ _ => byteLe_trans⟩

/-- The internal ring state (`hashRingState`): configuration, the sorted
virtual-node sequence, and the precomputed replica-owner mapping (a
`map[*VirtualNode][]Node` in the source, embedded as an association list). -/
structure HashRingState where
  hash : Bytes → Bytes
  virtualNodeCount : Nat
  replicationFactor : Nat
  virtualNodes : List VirtualNode
  replicaOwners : List (VirtualNode × List Node)

/-- Modelled from the spec: the owner identity bytes (`owner_bytes`) of a
distinct node, i.e. the bytes of the Go string naming the node. -/
def encodeNode (n : Node) : Bytes := n.toList.map Char.toNat

/-- Modelled from the spec: the two `sequence_bytes` of a `uint16` sequence
number, big-endian. -/
def encodeSeq (k : Nat) : Bytes := [k / 256 % 256, k % 256]

/-- Modelled from the spec (the `hashRingState` source file is absent): the
ring position of a virtual node, `hash(owner_bytes || sequence_bytes)`. -/
def vnodeName (hash : Bytes → Bytes) (n : Node) (k : Nat) : Bytes :=
  hash (encodeNode n ++ encodeSeq k)

/-- Modelled from the spec: the batch of virtual nodes a distinct node
generates, one per sequence number `0 .. virtualNodeCount - 1`. -/
def makeVnodes (hash : Bytes → Bytes) (vnc : Nat) (n : Node) : List VirtualNode :=
  (List.range vnc).map (fun k => ⟨vnodeName hash n k, n, k⟩)

/-- Modelled from the spec: the regenerated virtual-node names of a distinct
node, exactly the names produced by `makeVnodes`. -/
def nodeNames (hash : Bytes → Bytes) (vnc : Nat) (n : Node) : List Bytes :=
  (List.range vnc).map (vnodeName hash n)

/-- Modelled from the spec (`fixReplicaOwners` walk): collect the distinct
nodes of a list in first-encounter order, stopping once `rf` have been
collected or the list is exhausted. -/
def collectDistinct : Nat → List Node → List Node
  | 0, _ => []
  | _ + 1, [] => []
  | rf + 1, n :: rest => n :: collectDistinct rf (rest.filter (fun m => decide (m ≠ n)))

/-- Modelled from the spec: the replica owners recorded for the virtual node
at index `i`: walking the ring forward starting just after index `i` (wrapping
around, a full circle), collect distinct owners up to the replication
factor. -/
def replicaOwnersAt (vns : List VirtualNode) (rf : Nat) (i : Nat) : List Node :=
  collectDistinct rf ((vns.rotate (i + 1)).map (·.node))

/-- Modelled from the spec (`fixReplicaOwners`): the whole replica-owner
mapping recomputed from the virtual-node sequence. -/
def computeReplicaOwners (vns : List VirtualNode) (rf : Nat) : List (VirtualNode × List Node) :=
  (List.range vns.length).map (fun i => (vns.getD i default, replicaOwnersAt vns rf i))

/-- Go map lookup on the embedded association list. -/
def mapLookup (vn : VirtualNode) : List (VirtualNode × List Node) → Option (List Node)
  | [] => none
  | p :: rest => if p.1 = vn then some p.2 else mapLookup vn rest

/-- Modelled from the spec: repair the replica-owner mapping of a state after
its virtual-node sequence changed. -/
def fixOwners (s : HashRingState) : HashRingState :=
  { s with replicaOwners := computeReplicaOwners s.virtualNodes s.replicationFactor }

/-- The freshly initialized state built by `NewHashRing` (ring.go:98-104):
empty virtual-node sequence and empty replica-owner map. -/
def emptyState (hash : Bytes → Bytes) (rf vnc : Nat) : HashRingState :=
  { hash := hash, virtualNodeCount := vnc, replicationFactor := rf,
    virtualNodes := [], replicaOwners := [] }

/-- Modelled from the spec: merge-insert one virtual node into the sorted
sequence at the leftmost position whose name is not smaller (the stable
binary-search insertion point). -/
def insertVn (vn : VirtualNode) (vns : List VirtualNode) : List VirtualNode :=
  List.orderedInsert vnLe vn vns

/-- Merge-insert a batch of new virtual nodes into the sorted sequence. -/
def addVnodes (vns news : List VirtualNode) : List VirtualNode :=
  news.foldl (fun acc vn => insertVn vn acc) vns

def errAlreadyIn : String := "node already in the ring"

def errNotFound : String := "node not found in the ring"

def errEmptyRing : String := "empty ring"

def errSingleNode : String := "ring contains only one distinct node"

/-- Modelled from the spec (`hashRingState.insert`): process the given nodes
in order; a node that already owns virtual nodes in the (accumulated) ring is
an error, otherwise its generated virtual nodes are merge-inserted. Returns
the new sorted sequence and the unsorted list of newly created virtual
nodes. -/
def insertAll (hash : Bytes → Bytes) (vnc : Nat) :
    List Node → List VirtualNode → Except String (List VirtualNode × List VirtualNode)
  | [], vns => .ok (vns, [])
  | n :: rest, vns =>
    if n ∈ vns.map (·.node) then .error errAlreadyIn
    else
      match insertAll hash vnc rest (addVnodes vns (makeVnodes hash vnc n)) with
      | .error e => .error e
      | .ok (vns2, news) => .ok (vns2, makeVnodes hash vnc n ++ news)

/-- Modelled from the spec: `hashRingState.insert`, including the final
replica-owner recomputation. -/
def HashRingState.insert (s : HashRingState) (nodes : List Node) :
    Except String (HashRingState × List VirtualNode) :=
  match insertAll s.hash s.virtualNodeCount nodes s.virtualNodes with
  | .error e => .error e
  | .ok (vns2, news) => .ok (fixOwners { s with virtualNodes := vns2 }, news)

/-- Modelled from the spec: remove the leftmost virtual node carrying exactly
the given name (the exact binary-search hit), or fail when there is none. -/
def removeOne (nm : Bytes) : List VirtualNode → Option (VirtualNode × List VirtualNode)
  | [] => none
  | vn :: rest =>
    if vn.name = nm then some (vn, rest)
    else
      match removeOne nm rest with
      | none => none
      | some (x, ys) => some (x, vn :: ys)

/-- Modelled from the spec: remove one virtual node per regenerated name, in
order; fail when any name cannot be found. Returns the remaining sequence and
the removed virtual nodes. -/
def removeNames : List Bytes → List VirtualNode → Option (List VirtualNode × List VirtualNode)
  | [], vns => some (vns, [])
  | nm :: rest, vns =>
    match removeOne nm vns with
    | none => none
    | some (x, ys) =>
      match removeNames rest ys with
      | none => none
      | some (zs, rem) => some (zs, x :: rem)

/-- Modelled from the spec: `hashRingState.remove`: regenerate the expected
virtual-node names of the given nodes exactly as in insert, remove the
matching entries, and recompute the replica-owner mapping. -/
def HashRingState.remove (s : HashRingState) (nodes : List Node) :
    Except String (HashRingState × List VirtualNode) :=
  match removeNames (nodes.flatMap (nodeNames s.hash s.virtualNodeCount)) s.virtualNodes with
  | none => .error errNotFound
  | some (vns2, rem) => .ok (fixOwners { s with virtualNodes := vns2 }, rem)

/-- `HashRing.Insert` (ring.go:151-163): derive a new state, apply the insert
and, only on success, publish the new state; on error the published state is
the one from before the call. The pair is (published state, result). -/
def ringInsert (s : HashRingState) (nodes : List Node) :
    HashRingState × Except String (List VirtualNode) :=
  match s.insert nodes with
  | .error e => (s, .error e)
  | .ok (s2, news) => (s2, .ok news)

/-- `HashRing.Remove` (ring.go:172-184): derive a new state, apply the remove
and, only on success, publish the new state; on error the published state is
the one from before the call. -/
def ringRemove (s : HashRingState) (nodes : List Node) :
    HashRingState × Except String (List VirtualNode) :=
  match s.remove nodes with
  | .error e => (s, .error e)
  | .ok (s2, rem) => (s2, .ok rem)

/-- `HashRing.Clone` (ring.go:117-123): derive a structurally independent copy
of the current state, repair its replica-owner mapping and publish it as a new
ring (derivation is a deep copy, which value semantics renders as the state
itself). -/
def cloneState (s : HashRingState) : HashRingState :=
  fixOwners s

/-- `NewHashRing` (ring.go:87-113): validate the configuration, build the
empty state, insert the optional initial nodes while discarding any error from
that insert (ring.go:105-107), and publish. Integer parameters are Go `int`
values. -/
def newHashRing (hashFunc : Option (Bytes → Bytes)) (replicationFactor virtualNodeCount : Int)
    (nodes : List Node) : Except String HashRingState :=
  match hashFunc with
  | none => .error "hashFunc cannot be nil"
  | some h =>
    if replicationFactor < 1 ∨ 255 < replicationFactor then
      .error "replicationFactor not in (0, 256)"
    else if virtualNodeCount < 1 ∨ 65535 < virtualNodeCount then
      .error "virtualNodeCount not in (0, 65536)"
    else
      .ok (ringInsert (emptyState h replicationFactor.toNat virtualNodeCount.toNat) nodes).1

/-- The states a ring facade can ever publish: a freshly constructed state
followed by any sequence of Insert, Remove and Clone calls (failed calls keep
the previous state published, which `ringInsert`/`ringRemove` capture). -/
inductive Reachable : HashRingState → Prop where
  | empty (h : Bytes → Bytes) (rf vnc : Nat) : Reachable (emptyState h rf vnc)
  | ins (s : HashRingState) (nodes : List Node) :
      Reachable s → Reachable (ringInsert s nodes).1
  | rem (s : HashRingState) (nodes : List Node) :
      Reachable s → Reachable (ringRemove s nodes).1
  | clone (s : HashRingState) : Reachable s → Reachable (cloneState s)

/-- Modelled from the spec: the index selected by the binary search of
`virtualNodeForKey` on the sorted sequence: the leftmost index whose name is
not smaller than the key hash (`sort.Search` semantics). -/
def searchIdx (kh : Bytes) : List VirtualNode → Option Nat
  | [] => none
  | vn :: rest => if byteLe kh vn.name then some 0 else (searchIdx kh rest).map (· + 1)

/-- Modelled from the spec: the ring index a key lands on: the binary-search
index, wrapping to index 0 when the key hash exceeds every name. -/
def keyIndex (s : HashRingState) (key : Bytes) : Nat :=
  (searchIdx (s.hash key) s.virtualNodes).getD 0

/-- Modelled from the spec: `virtualNodeForKey`: the virtual node at the
selected ring index (`none` exactly when the ring is empty). -/
def virtualNodeForKey (s : HashRingState) (key : Bytes) : Option VirtualNode :=
  s.virtualNodes[keyIndex s key]?

/-- `HashRing.NodesForKey` (ring.go:191-193), with the state lookup modelled
from the spec: the precomputed replica owners of the virtual node the key
lands on. A missing map entry is a Go `nil` slice, i.e. the empty list; note
the signature has no error result. -/
def nodesForKey (s : HashRingState) (key : Bytes) : List Node :=
  match virtualNodeForKey s key with
  | none => []
  | some vn => (mapLookup vn s.replicaOwners).getD []

/-- Modelled from the spec: `predecessor`: the virtual node immediately before
the key position, wrapping around; empty-ring error otherwise. -/
def predecessor (s : HashRingState) (key : Bytes) : Except String VirtualNode :=
  match s.virtualNodes with
  | [] => .error errEmptyRing
  | _ :: _ =>
    .ok (s.virtualNodes.getD
      ((keyIndex s key + s.virtualNodes.length - 1) % s.virtualNodes.length) default)

/-- Modelled from the spec: `successor`: the virtual node immediately after
the key position, wrapping around; empty-ring error otherwise. -/
def successor (s : HashRingState) (key : Bytes) : Except String VirtualNode :=
  match s.virtualNodes with
  | [] => .error errEmptyRing
  | _ :: _ =>
    .ok (s.virtualNodes.getD ((keyIndex s key + 1) % s.virtualNodes.length) default)

/-- Modelled from the spec: `predecessorNode`: walk backwards from the key
position (a full circle at most) until a virtual node owned by a different
distinct node is found; the candidates in walk order are the reversed rotation
of the ring at the key index. -/
def predecessorNode (s : HashRingState) (key : Bytes) : Except String VirtualNode :=
  match virtualNodeForKey s key with
  | none => .error errEmptyRing
  | some vn0 =>
    match ((s.virtualNodes.rotate (keyIndex s key)).reverse).find?
        (fun vn => vn.node != vn0.node) with
    | some vn => .ok vn
    | none => .error errSingleNode

/-- Modelled from the spec: `successorNode`: walk forwards from the key
position (a full circle at most) until a virtual node owned by a different
distinct node is found. -/
def successorNode (s : HashRingState) (key : Bytes) : Except String VirtualNode :=
  match virtualNodeForKey s key with
  | none => .error errEmptyRing
  | some vn0 =>
    match (s.virtualNodes.rotate (keyIndex s key + 1)).find?
        (fun vn => vn.node != vn0.node) with
    | some vn => .ok vn
    | none => .error errSingleNode

/-- The distinct owning nodes of a state (`Size` counts them). -/
def distinctNodes (s : HashRingState) : Finset Node :=
  (s.virtualNodes.map (·.node)).toFinset

theorem collectDistinct_subset : ∀ (rf : Nat) (ns : List Node), ∀ x ∈ collectDistinct rf ns, x ∈ ns := by
  intro rf
  induction rf with
  | zero => intro ns x hx; simp [collectDistinct] at hx
  | succ rf ih =>
    intro ns x hx
    cases ns with
    | nil => simp [collectDistinct] at hx
    | cons n rest =>
      simp only [collectDistinct, List.mem_cons] at hx
      rcases hx with h | h
      · exact List.mem_cons.2 (Or.inl h)
      · exact List.mem_cons_of_mem n (List.mem_of_mem_filter (ih _ x h))

theorem collectDistinct_nodup : ∀ (rf : Nat) (ns : List Node), (collectDistinct rf ns).Nodup := by
  intro rf
  induction rf with
  | zero => intro ns; simp [collectDistinct]
  | succ rf ih =>
    intro ns
    cases ns with
    | nil => simp [collectDistinct]
    | cons n rest =>
      simp only [collectDistinct, List.nodup_cons]
      refine ⟨fun hmem => ?_, ih _⟩
      have hx := collectDistinct_subset _ _ _ hmem
      have := List.of_mem_filter hx
      simp at this

theorem collectDistinct_length : ∀ (rf : Nat) (ns : List Node),
    (collectDistinct rf ns).length = min rf ns.toFinset.card := by
  intro rf
  induction rf with
  | zero => intro ns; simp [collectDistinct]
  | succ rf ih =>
    intro ns
    cases ns with
    | nil => simp [collectDistinct]
    | cons n rest =>
      have hfil : (rest.filter (fun m => decide (m ≠ n))).toFinset = rest.toFinset.erase n := by
        rw [List.toFinset_filter]
        simp only [decide_eq_true_eq]
        exact Finset.filter_ne' _ _
      have hcard : (n :: rest).toFinset.card
          = (rest.filter (fun m => decide (m ≠ n))).toFinset.card + 1 := by
        rw [hfil, List.toFinset_cons]
        by_cases hn : n ∈ rest.toFinset
        · rw [Finset.insert_eq_self.2 hn, ← Finset.card_erase_add_one hn]
        · rw [Finset.card_insert_of_not_mem hn, Finset.erase_eq_of_not_mem hn]
      simp only [collectDistinct, List.length_cons, ih, hcard]
      omega

theorem replicaOwnersAt_nodup (vns : List VirtualNode) (rf i : Nat) :
    (replicaOwnersAt vns rf i).Nodup :=
  collectDistinct_nodup _ _

theorem replicaOwnersAt_length (vns : List VirtualNode) (rf i : Nat) :
    (replicaOwnersAt vns rf i).length = min rf (vns.map (·.node)).toFinset.card := by
  unfold replicaOwnersAt
  rw [collectDistinct_length]
  congr 2
  exact List.toFinset_eq_of_perm _ _ ((List.rotate_perm _ _).map _)

theorem mapLookup_entries (vns : List VirtualNode) (rf : Nat) (vn : VirtualNode)
    (v : List Node) : ∀ is : List Nat,
    mapLookup vn (is.map (fun i => (vns.getD i default, replicaOwnersAt vns rf i))) = some v →
    ∃ i ∈ is, vns.getD i default = vn ∧ v = replicaOwnersAt vns rf i := by
  intro is
  induction is with
  | nil => intro h; simp [mapLookup] at h
  | cons j js ih =>
    intro h
    simp only [List.map_cons, mapLookup] at h
    by_cases hj : vns.getD j default = vn
    · rw [if_pos hj] at h
      exact ⟨j, List.mem_cons_self _ _, hj, (Option.some.inj h).symm⟩
    · rw [if_neg hj] at h
      obtain ⟨i, hi, hgi, hv⟩ := ih h
      exact ⟨i, List.mem_cons_of_mem _ hi, hgi, hv⟩

theorem mapLookup_entries_isSome (vns : List VirtualNode) (rf : Nat) (vn : VirtualNode) :
    ∀ is : List Nat, (∃ i ∈ is, vns.getD i default = vn) →
    (mapLookup vn (is.map (fun i => (vns.getD i default, replicaOwnersAt vns rf i)))).isSome := by
  intro is
  induction is with
  | nil => rintro ⟨i, hi, _⟩; simp at hi
  | cons j js ih =>
    rintro ⟨i, hi, hgi⟩
    simp only [List.map_cons, mapLookup]
    by_cases hj : vns.getD j default = vn
    · rw [if_pos hj]; rfl
    · rw [if_neg hj]
      rcases List.mem_cons.1 hi with h | h
      · exact absurd (h ▸ hgi) hj
      · exact ih ⟨i, h, hgi⟩

theorem searchIdx_lt_length (kh : Bytes) : ∀ (vns : List VirtualNode) (j : Nat),
    searchIdx kh vns = some j → j < vns.length := by
  intro vns
  induction vns with
  | nil => intro j h; simp [searchIdx] at h
  | cons vn rest ih =>
    intro j h
    simp only [searchIdx] at h
    by_cases hle : byteLe kh vn.name
    · rw [if_pos hle] at h
      cases h
      simp
    · rw [if_neg hle] at h
      obtain ⟨j2, hj2, he⟩ := Option.map_eq_some'.1 h
      subst he
      have := ih j2 hj2
      simp only [List.length_cons]
      omega

theorem keyIndex_lt (s : HashRingState) (key : Bytes) (h : s.virtualNodes ≠ []) :
    keyIndex s key < s.virtualNodes.length := by
  unfold keyIndex
  cases hs : searchIdx (s.hash key) s.virtualNodes with
  | none => simpa using List.length_pos.2 h
  | some j => simpa using searchIdx_lt_length _ _ _ hs

theorem virtualNodeForKey_getD (s : HashRingState) (key : Bytes) (h : s.virtualNodes ≠ []) :
    virtualNodeForKey s key = some (s.virtualNodes.getD (keyIndex s key) default) := by
  have hlt := keyIndex_lt s key h
  unfold virtualNodeForKey
  rw [List.getElem?_eq_getElem hlt, List.getD_eq_getElem?_getD, List.getElem?_eq_getElem hlt]
  rfl

theorem mem_getD_of_mem (vns : List VirtualNode) (vn : VirtualNode) (h : vn ∈ vns) :
    ∃ i ∈ List.range vns.length, vns.getD i default = vn := by
  obtain ⟨n, hn, he⟩ := List.mem_iff_getElem.1 h
  refine ⟨n, List.mem_range.2 hn, ?_⟩
  rw [List.getD_eq_getElem?_getD, List.getElem?_eq_getElem hn]
  simpa using he

/-- C1: on every ring with at least one virtual node whose replica-owner
mapping is the (re)computed one, `NodesForKey` returns a list of pairwise
distinct nodes, of length at most the replication factor and at least the
minimum of the replication factor and the number of distinct nodes in the
ring. -/
theorem C1_nodesForKey_bounds (s : HashRingState) (key : Bytes)
    (hne : s.virtualNodes ≠ [])
    (hmap : s.replicaOwners = computeReplicaOwners s.virtualNodes s.replicationFactor) :
    (nodesForKey s key).Nodup ∧ (nodesForKey s key).length ≤ s.replicationFactor ∧
      min s.replicationFactor (distinctNodes s).card ≤ (nodesForKey s key).length := by
  have hlt := keyIndex_lt s key hne
  have hvk := virtualNodeForKey_getD s key hne
  have hmem : (s.virtualNodes.getD (keyIndex s key) default) ∈ s.virtualNodes := by
    rw [List.getD_eq_getElem?_getD, List.getElem?_eq_getElem hlt]
    exact List.getElem_mem hlt
  have hsome := mapLookup_entries_isSome s.virtualNodes s.replicationFactor
    (s.virtualNodes.getD (keyIndex s key) default) (List.range s.virtualNodes.length)
    (mem_getD_of_mem _ _ hmem)
  obtain ⟨v, hv⟩ := Option.isSome_iff_exists.1 hsome
  obtain ⟨i, _, _, hveq⟩ := mapLookup_entries s.virtualNodes s.replicationFactor _ v _ hv
  have hnfk : nodesForKey s key = v := by
    unfold nodesForKey
    rw [hvk]
    show (mapLookup (s.virtualNodes.getD (keyIndex s key) default) s.replicaOwners).getD [] = v
    rw [hmap]
    unfold computeReplicaOwners
    rw [hv]
    rfl
  rw [hnfk, hveq]
  refine ⟨replicaOwnersAt_nodup _ _ _, ?_, ?_⟩
  · rw [replicaOwnersAt_length]; exact Nat.min_le_left _ _
  · rw [replicaOwnersAt_length]; exact Nat.le_refl _

/-- A simple concrete hash function (the identity on byte slices) used to
instantiate witnesses. -/
def idHash : Bytes → Bytes := fun b => b

/-- A concrete ring with two distinct nodes, one virtual node each,
replication factor 2. -/
def ringAB : HashRingState := (ringInsert (emptyState idHash 2 1) ["A", "B"]).1

/-- A concrete ring with a single distinct node. -/
def ringA : HashRingState := (ringInsert (emptyState idHash 2 1) ["A"]).1

theorem C1_nodesForKey_bounds_witness :
    (nodesForKey ringAB [0]).Nodup ∧ (nodesForKey ringAB [0]).length ≤ ringAB.replicationFactor ∧
      min ringAB.replicationFactor (distinctNodes ringAB).card ≤ (nodesForKey ringAB [0]).length :=
  C1_nodesForKey_bounds ringAB [0] (by decide) (by decide)

theorem searchIdx_none (kh : Bytes) : ∀ vns : List VirtualNode,
    searchIdx kh vns = none → ∀ w ∈ vns, byteLe kh w.name = false := by
  intro vns
  induction vns with
  | nil => intro _ w hw; simp at hw
  | cons a rest ih =>
    intro h w hw
    simp only [searchIdx] at h
    by_cases hle : byteLe kh a.name
    · rw [if_pos hle] at h; cases h
    · rw [if_neg hle] at h
      rcases List.mem_cons.1 hw with he | hr
      · subst he; exact Bool.eq_false_iff.2 hle
      · exact ih (Option.map_eq_none'.1 h) w hr

theorem searchIdx_some_sat (kh : Bytes) : ∀ (vns : List VirtualNode) (j : Nat),
    searchIdx kh vns = some j → ∃ w ∈ vns, byteLe kh w.name = true := by
  intro vns
  induction vns with
  | nil => intro j h; simp [searchIdx] at h
  | cons a rest ih =>
    intro j h
    simp only [searchIdx] at h
    by_cases hle : byteLe kh a.name
    · exact ⟨a, List.mem_cons_self _ _, hle⟩
    · rw [if_neg hle] at h
      obtain ⟨j2, hj2, _⟩ := Option.map_eq_some'.1 h
      obtain ⟨w, hw, hwle⟩ := ih j2 hj2
      exact ⟨w, List.mem_cons_of_mem _ hw, hwle⟩

theorem searchIdx_spec (kh : Bytes) : ∀ vns : List VirtualNode,
    List.Sorted vnLe vns → vns ≠ [] →
    ∃ vn, vns[(searchIdx kh vns).getD 0]? = some vn ∧ vn ∈ vns ∧
      ((∃ w ∈ vns, byteLe kh w.name = true) →
        byteLe kh vn.name = true ∧
          ∀ w ∈ vns, byteLe kh w.name = true → byteLe vn.name w.name = true) ∧
      ((∀ w ∈ vns, byteLe kh w.name = false) → vns.head? = some vn) := by
  intro vns
  induction vns with
  | nil => intro _ h; exact absurd rfl h
  | cons a rest ih =>
    intro hsort _
    have hrest := (List.sorted_cons.1 hsort).2
    have hafirst := (List.sorted_cons.1 hsort).1
    by_cases hle : byteLe kh a.name
    · refine ⟨a, ?_, List.mem_cons_self _ _, ?_, ?_⟩
      · simp [searchIdx, hle]
      · intro _
        refine ⟨hle, fun w hw hwle => ?_⟩
        rcases List.mem_cons.1 hw with he | hr
        · subst he; exact byteLe_refl _
        · exact hafirst w hr
      · intro hall
        exact absurd hle (by simpa using hall a (List.mem_cons_self _ _))
    · cases hs : searchIdx kh rest with
      | none =>
        have hallrest := searchIdx_none kh rest hs
        refine ⟨a, ?_, List.mem_cons_self _ _, ?_, ?_⟩
        · simp [searchIdx, hle, hs]
        · rintro ⟨w, hw, hwle⟩
          rcases List.mem_cons.1 hw with he | hr
          · subst he; exact absurd hwle (by simpa using hle)
          · exact absurd hwle (by simp [hallrest w hr])
        · intro _; rfl
      | some j =>
        have hne2 : rest ≠ [] := by
          rintro rfl; simp [searchIdx] at hs
        obtain ⟨vn, hget, hmem, hfirst, _⟩ := ih hrest hne2
        rw [hs] at hget
        simp only [Option.getD_some] at hget
        obtain ⟨w0, hw0, hw0le⟩ := searchIdx_some_sat kh rest j hs
        have hf := hfirst ⟨w0, hw0, hw0le⟩
        refine ⟨vn, ?_, List.mem_cons_of_mem _ hmem, ?_, ?_⟩
        · simp only [searchIdx, if_neg hle, hs, Option.map_some', Option.getD_some]
          simpa using hget
        · intro _
          refine ⟨hf.1, fun w hw hwle => ?_⟩
          rcases List.mem_cons.1 hw with he | hr
          · subst he; exact absurd hwle (by simpa using hle)
          · exact hf.2 w hr hwle
        · intro hall
          exact absurd (hall vn (List.mem_cons_of_mem _ hmem)) (by simp [hf.1])

/-- C2: on every sorted non-empty ring, `VirtualNodeForKey` returns the first
virtual node (in ascending byte-lexicographic order of names) whose name is
at least the key hash, and the virtual node at index 0 when the key hash
exceeds every name. -/
theorem C2_virtualNodeForKey_clockwise (s : HashRingState) (key : Bytes)
    (hsort : List.Sorted vnLe s.virtualNodes) (hne : s.virtualNodes ≠ []) :
    ∃ vn, virtualNodeForKey s key = some vn ∧ vn ∈ s.virtualNodes ∧
      ((∃ w ∈ s.virtualNodes, byteLe (s.hash key) w.name = true) →
        byteLe (s.hash key) vn.name = true ∧
          ∀ w ∈ s.virtualNodes, byteLe (s.hash key) w.name = true →
            byteLe vn.name w.name = true) ∧
      ((∀ w ∈ s.virtualNodes, byteLe (s.hash key) w.name = false) →
        s.virtualNodes.head? = some vn) :=
  searchIdx_spec (s.hash key) s.virtualNodes hsort hne

theorem C2_virtualNodeForKey_clockwise_witness :
    ∃ vn, virtualNodeForKey ringAB [70] = some vn ∧ vn ∈ ringAB.virtualNodes ∧
      ((∃ w ∈ ringAB.virtualNodes, byteLe (ringAB.hash [70]) w.name = true) →
        byteLe (ringAB.hash [70]) vn.name = true ∧
          ∀ w ∈ ringAB.virtualNodes, byteLe (ringAB.hash [70]) w.name = true →
            byteLe vn.name w.name = true) ∧
      ((∀ w ∈ ringAB.virtualNodes, byteLe (ringAB.hash [70]) w.name = false) →
        ringAB.virtualNodes.head? = some vn) :=
  C2_virtualNodeForKey_clockwise ringAB [70] (by decide) (by decide)

theorem addVnodes_perm (news : List VirtualNode) : ∀ vns : List VirtualNode,
    (addVnodes vns news).Perm (vns ++ news) := by
  induction news with
  | nil => intro vns; simp [addVnodes]
  | cons v rest ih =>
    intro vns
    have h1 : (addVnodes vns (v :: rest)) = addVnodes (insertVn v vns) rest := rfl
    rw [h1]
    refine ((ih (insertVn v vns)).trans ?_)
    have h2 : (insertVn v vns ++ rest).Perm ((v :: vns) ++ rest) :=
      (List.perm_orderedInsert vnLe v vns).append_right rest
    refine h2.trans ?_
    exact (List.perm_middle).symm

theorem addVnodes_sorted (news : List VirtualNode) : ∀ vns : List VirtualNode,
    List.Sorted vnLe vns → List.Sorted vnLe (addVnodes vns news) := by
  induction news with
  | nil => intro vns h; exact h
  | cons v rest ih =>
    intro vns h
    exact ih (insertVn v vns) (List.Sorted.orderedInsert v vns h)

theorem makeVnodes_map_node (hash : Bytes → Bytes) (vnc : Nat) (n : Node) :
    (makeVnodes hash vnc n).map (·.node) = List.replicate vnc n := by
  unfold makeVnodes
  rw [List.map_map]
  show (List.range vnc).map (fun _ => n) = _
  rw [List.map_const', List.length_range]

theorem insertAll_ok_charac (hash : Bytes → Bytes) (vnc : Nat) :
    ∀ (L : List Node) (vns vns2 news : List VirtualNode),
    insertAll hash vnc L vns = .ok (vns2, news) →
    news = L.flatMap (makeVnodes hash vnc) ∧ vns2.Perm (vns ++ news) := by
  intro L
  induction L with
  | nil =>
    intro vns vns2 news h
    simp only [insertAll] at h
    cases h
    simp
  | cons n rest ih =>
    intro vns vns2 news h
    simp only [insertAll] at h
    by_cases hmem : n ∈ vns.map (·.node)
    · rw [if_pos hmem] at h; cases h
    · rw [if_neg hmem] at h
      cases hrec : insertAll hash vnc rest (addVnodes vns (makeVnodes hash vnc n)) with
      | error e => rw [hrec] at h; cases h
      | ok p =>
        rw [hrec] at h
        obtain ⟨vns2r, newsr⟩ := p
        cases h
        obtain ⟨hn, hp⟩ := ih _ _ _ hrec
        subst hn
        constructor
        · simp [List.flatMap_cons]
        · refine hp.trans ?_
          refine ((addVnodes_perm _ _).append_right _).trans ?_
          rw [List.append_assoc]

theorem insertAll_ok_sorted (hash : Bytes → Bytes) (vnc : Nat) :
    ∀ (L : List Node) (vns vns2 news : List VirtualNode),
    insertAll hash vnc L vns = .ok (vns2, news) →
    List.Sorted vnLe vns → List.Sorted vnLe vns2 := by
  intro L
  induction L with
  | nil =>
    intro vns vns2 news h hs
    simp only [insertAll] at h
    cases h
    exact hs
  | cons n rest ih =>
    intro vns vns2 news h hs
    simp only [insertAll] at h
    by_cases hmem : n ∈ vns.map (·.node)
    · rw [if_pos hmem] at h; cases h
    · rw [if_neg hmem] at h
      cases hrec : insertAll hash vnc rest (addVnodes vns (makeVnodes hash vnc n)) with
      | error e => rw [hrec] at h; cases h
      | ok p =>
        rw [hrec] at h
        obtain ⟨vns2r, newsr⟩ := p
        cases h
        exact ih _ _ _ hrec (addVnodes_sorted _ _ hs)

theorem insertAll_ok_of_fresh (hash : Bytes → Bytes) (vnc : Nat) :
    ∀ (L : List Node) (vns : List VirtualNode), L.Nodup →
    (∀ n ∈ L, n ∉ vns.map (·.node)) →
    ∃ vns2, insertAll hash vnc L vns = .ok (vns2, L.flatMap (makeVnodes hash vnc)) := by
  intro L
  induction L with
  | nil => intro vns _ _; exact ⟨vns, rfl⟩
  | cons n rest ih =>
    intro vns hnd hfresh
    have hmem : n ∉ vns.map (·.node) := hfresh n (List.mem_cons_self _ _)
    have hnd2 := List.nodup_cons.1 hnd
    have hfresh2 : ∀ m ∈ rest, m ∉ (addVnodes vns (makeVnodes hash vnc n)).map (·.node) := by
      intro m hm hmm
      have hperm := (addVnodes_perm (makeVnodes hash vnc n) vns).map (·.node)
      rw [hperm.mem_iff, List.map_append, List.mem_append, makeVnodes_map_node] at hmm
      rcases hmm with h | h
      · exact hfresh m (List.mem_cons_of_mem _ hm) h
      · exact hnd2.1 ((List.eq_of_mem_replicate h) ▸ hm)
    obtain ⟨vns2, hrec⟩ := ih (addVnodes vns (makeVnodes hash vnc n)) hnd2.2 hfresh2
    refine ⟨vns2, ?_⟩
    simp only [insertAll, if_neg hmem, hrec, List.flatMap_cons]

theorem insertAll_error_of_dup (hash : Bytes → Bytes) (vnc : Nat) :
    ∀ (L : List Node) (vns : List VirtualNode), (∃ n ∈ L, n ∈ vns.map (·.node)) →
    ∃ e, insertAll hash vnc L vns = .error e := by
  intro L
  induction L with
  | nil => rintro vns ⟨n, hn, _⟩; simp at hn
  | cons m rest ih =>
    rintro vns ⟨n, hn, hmem⟩
    by_cases hm : m ∈ vns.map (·.node)
    · exact ⟨errAlreadyIn, by simp only [insertAll, if_pos hm]⟩
    · have hne : n ≠ m := fun he => hm (he ▸ hmem)
      have hnrest : n ∈ rest := by
        rcases List.mem_cons.1 hn with h | h
        · exact absurd h hne
        · exact h
      have hmem2 : n ∈ (addVnodes vns (makeVnodes hash vnc m)).map (·.node) := by
        have hperm := (addVnodes_perm (makeVnodes hash vnc m) vns).map (·.node)
        rw [hperm.mem_iff, List.map_append, List.mem_append]
        exact Or.inl hmem
      obtain ⟨e, he⟩ := ih (addVnodes vns (makeVnodes hash vnc m)) ⟨n, hnrest, hmem2⟩
      exact ⟨e, by simp only [insertAll, if_neg hm, he]⟩

theorem removeOne_some_charac (nm : Bytes) : ∀ (vns ys : List VirtualNode) (x : VirtualNode),
    removeOne nm vns = some (x, ys) →
    x.name = nm ∧ vns.Perm (x :: ys) ∧ ys.Sublist vns := by
  intro vns
  induction vns with
  | nil => intro ys x h; simp [removeOne] at h
  | cons vn rest ih =>
    intro ys x h
    simp only [removeOne] at h
    by_cases hn : vn.name = nm
    · rw [if_pos hn] at h
      cases h
      exact ⟨hn, List.Perm.refl _, List.sublist_cons_self _ _⟩
    · rw [if_neg hn] at h
      cases hrec : removeOne nm rest with
      | none => rw [hrec] at h; cases h
      | some p =>
        rw [hrec] at h
        obtain ⟨x2, ys2⟩ := p
        cases h
        obtain ⟨hname, hperm, hsub⟩ := ih _ _ hrec
        refine ⟨hname, ?_, hsub.cons_cons vn⟩
        refine ((hperm.cons vn).trans ?_)
        exact List.Perm.swap _ _ _

theorem removeOne_none_iff (nm : Bytes) : ∀ vns : List VirtualNode,
    removeOne nm vns = none ↔ nm ∉ vns.map (·.name) := by
  intro vns
  induction vns with
  | nil => simp [removeOne]
  | cons vn rest ih =>
    by_cases hn : vn.name = nm
    · simp only [removeOne, if_pos hn]
      constructor
      · intro h; cases h
      · intro h; exact absurd (by simp [hn]) h
    · simp only [removeOne, if_neg hn]
      cases hrec : removeOne nm rest with
      | none =>
        have hnotin := ih.1 hrec
        constructor
        · intro _
          simp only [List.map_cons, List.mem_cons]
          rintro (he | hm)
          · exact hn he.symm
          · exact hnotin hm
        · intro _; rfl
      | some p =>
        obtain ⟨x, ys⟩ := p
        have hin : nm ∈ rest.map (·.name) := by
          by_contra hno
          have h2 := ih.2 hno
          rw [h2] at hrec
          cases hrec
        constructor
        · intro h; cases h
        · intro h
          exact absurd (by rw [List.map_cons]; exact List.mem_cons_of_mem _ hin) h

theorem removeNames_sublist : ∀ (nms : List Bytes) (vns vns2 rem : List VirtualNode),
    removeNames nms vns = some (vns2, rem) → vns2.Sublist vns := by
  intro nms
  induction nms with
  | nil =>
    intro vns vns2 rem h
    simp only [removeNames] at h
    cases h
    exact List.Sublist.refl _
  | cons nm rest ih =>
    intro vns vns2 rem h
    cases hro : removeOne nm vns with
    | none =>
      rw [show removeNames (nm :: rest) vns = none by simp only [removeNames, hro]] at h
      cases h
    | some p =>
      obtain ⟨x, ys⟩ := p
      cases hrn : removeNames rest ys with
      | none =>
        rw [show removeNames (nm :: rest) vns = none by
          simp only [removeNames, hro, hrn]] at h
        cases h
      | some q =>
        obtain ⟨zs, rem2⟩ := q
        rw [show removeNames (nm :: rest) vns = some (zs, x :: rem2) by
          simp only [removeNames, hro, hrn]] at h
        cases h
        exact (ih _ _ _ hrn).trans (removeOne_some_charac nm vns ys x hro).2.2

theorem removeNames_ok_subperm : ∀ (nms : List Bytes) (vns : List VirtualNode),
    (↑nms : Multiset Bytes) ≤ ↑(vns.map (·.name)) →
    ∃ vns2 rem, removeNames nms vns = some (vns2, rem) ∧ rem.map (·.name) = nms ∧
      (↑(vns.map (·.name)) : Multiset Bytes) = ↑nms + ↑(vns2.map (·.name)) := by
  intro nms
  induction nms with
  | nil =>
    intro vns _
    exact ⟨vns, [], rfl, rfl, by simp⟩
  | cons nm rest ih =>
    intro vns hle
    have hmem : nm ∈ vns.map (·.name) := by
      rw [← Multiset.mem_coe]
      refine Multiset.mem_of_le hle ?_
      rw [← Multiset.cons_coe]
      exact Multiset.mem_cons_self _ _
    have hro : (removeOne nm vns).isSome := by
      cases hro2 : removeOne nm vns with
      | none => exact absurd ((removeOne_none_iff nm vns).1 hro2) (by simpa using hmem)
      | some p => rfl
    obtain ⟨p, hp⟩ := Option.isSome_iff_exists.1 hro
    obtain ⟨x, ys⟩ := p
    obtain ⟨hname, hperm, _⟩ := removeOne_some_charac nm vns ys x hp
    have hcoe : (↑(vns.map (·.name)) : Multiset Bytes) = nm ::ₘ ↑(ys.map (·.name)) := by
      have := (hperm.map (·.name))
      rw [Multiset.coe_eq_coe.2 this, List.map_cons, hname, Multiset.cons_coe]
    have hle2 : (↑rest : Multiset Bytes) ≤ ↑(ys.map (·.name)) := by
      rw [← Multiset.cons_coe, hcoe] at hle
      exact (Multiset.cons_le_cons_iff nm).1 hle
    obtain ⟨zs, rem2, hrn, hrm, hms⟩ := ih ys hle2
    refine ⟨zs, x :: rem2, ?_, ?_, ?_⟩
    · simp only [removeNames, hp, hrn]
    · rw [List.map_cons, hname, hrm]
    · rw [hcoe, hms, ← Multiset.cons_coe, Multiset.cons_add]

theorem insert_ok_dest {s : HashRingState} {L : List Node} {s2 : HashRingState}
    {news : List VirtualNode} (h : s.insert L = .ok (s2, news)) :
    ∃ vns2, insertAll s.hash s.virtualNodeCount L s.virtualNodes = .ok (vns2, news) ∧
      s2 = fixOwners { s with virtualNodes := vns2 } := by
  unfold HashRingState.insert at h
  cases hin : insertAll s.hash s.virtualNodeCount L s.virtualNodes with
  | error e => rw [hin] at h; cases h
  | ok p =>
    obtain ⟨vns2, news2⟩ := p
    rw [hin] at h
    cases h
    exact ⟨vns2, rfl, rfl⟩

theorem remove_ok_dest {s : HashRingState} {L : List Node} {s2 : HashRingState}
    {rem : List VirtualNode} (h : s.remove L = .ok (s2, rem)) :
    ∃ vns2, removeNames (L.flatMap (nodeNames s.hash s.virtualNodeCount)) s.virtualNodes
        = some (vns2, rem) ∧ s2 = fixOwners { s with virtualNodes := vns2 } := by
  unfold HashRingState.remove at h
  cases hrn : removeNames (L.flatMap (nodeNames s.hash s.virtualNodeCount)) s.virtualNodes with
  | none => rw [hrn] at h; cases h
  | some p =>
    obtain ⟨vns2, rem2⟩ := p
    rw [hrn] at h
    cases h
    exact ⟨vns2, rfl, rfl⟩

/-- C4: every ring state reachable through any sequence of construction,
Insert, Remove and Clone operations has its virtual-node sequence sorted in
ascending byte-lexicographic order of names. -/
theorem C4_reachable_sorted (s : HashRingState) (h : Reachable s) :
    List.Sorted vnLe s.virtualNodes := by
  induction h with
  | empty h rf vnc => exact List.sorted_nil
  | ins s L _ ih =>
    unfold ringInsert
    cases hins : s.insert L with
    | error e => exact ih
    | ok p =>
      obtain ⟨s2, news⟩ := p
      obtain ⟨vns2, hin, hs2⟩ := insert_ok_dest hins
      subst hs2
      exact insertAll_ok_sorted _ _ _ _ _ _ hin ih
  | rem s L _ ih =>
    unfold ringRemove
    cases hrem : s.remove L with
    | error e => exact ih
    | ok p =>
      obtain ⟨s2, rem⟩ := p
      obtain ⟨vns2, hrn, hs2⟩ := remove_ok_dest hrem
      subst hs2
      exact List.Pairwise.sublist (removeNames_sublist _ _ _ _ hrn) ih
  | clone s _ ih => exact ih

theorem C4_reachable_sorted_witness : List.Sorted vnLe ringAB.virtualNodes :=
  C4_reachable_sorted ringAB
    (Reachable.ins (emptyState idHash 2 1) ["A", "B"] (Reachable.empty idHash 2 1))

/-- Every reachable state's stored replica-owner mapping is exactly the one
recomputed from its virtual-node sequence (the `fixReplicaOwners` result). -/
theorem reachable_fixed (s : HashRingState) (h : Reachable s) :
    s.replicaOwners = computeReplicaOwners s.virtualNodes s.replicationFactor := by
  induction h with
  | empty h rf vnc => rfl
  | ins s L _ ih =>
    unfold ringInsert
    cases hins : s.insert L with
    | error e => exact ih
    | ok p =>
      obtain ⟨s2, news⟩ := p
      obtain ⟨vns2, _, hs2⟩ := insert_ok_dest hins
      subst hs2
      rfl
  | rem s L _ ih =>
    unfold ringRemove
    cases hrem : s.remove L with
    | error e => exact ih
    | ok p =>
      obtain ⟨s2, rem⟩ := p
      obtain ⟨vns2, _, hs2⟩ := remove_ok_dest hrem
      subst hs2
      rfl
  | clone s _ ih => rfl

/-- Two independent ring facades: apply `Insert` to the first one only. -/
def pairInsertFst (p : HashRingState × HashRingState) (L : List Node) :
    HashRingState × HashRingState :=
  ((ringInsert p.1 L).1, p.2)

/-- Two independent ring facades: apply `Remove` to the first one only. -/
def pairRemoveFst (p : HashRingState × HashRingState) (L : List Node) :
    HashRingState × HashRingState :=
  ((ringRemove p.1 L).1, p.2)

/-- C9: on every reachable ring, `Clone` produces a ring observably equal to
the original (same virtual nodes, same replica-owner mapping), and afterwards
every Insert or Remove applied to either of the two rings leaves the other
ring's state unchanged (the deep copy made by `derive` is rendered by value
semantics: the untouched component of the two-ring world is preserved
exactly). -/
theorem C9_clone_observably_equal_independent (s : HashRingState) (h : Reachable s) :
    (cloneState s).virtualNodes = s.virtualNodes ∧
    (cloneState s).replicaOwners = s.replicaOwners ∧
    (∀ L, (pairInsertFst (cloneState s, s) L).2 = s ∧
          (pairRemoveFst (cloneState s, s) L).2 = s ∧
          (pairInsertFst (s, cloneState s) L).2 = cloneState s ∧
          (pairRemoveFst (s, cloneState s) L).2 = cloneState s) := by
  refine ⟨rfl, ?_, fun L => ⟨rfl, rfl, rfl, rfl⟩⟩
  exact (reachable_fixed s h).symm

theorem C9_clone_observably_equal_independent_witness :
    (cloneState ringAB).virtualNodes = ringAB.virtualNodes ∧
    (cloneState ringAB).replicaOwners = ringAB.replicaOwners ∧
    (∀ L, (pairInsertFst (cloneState ringAB, ringAB) L).2 = ringAB ∧
          (pairRemoveFst (cloneState ringAB, ringAB) L).2 = ringAB ∧
          (pairInsertFst (ringAB, cloneState ringAB) L).2 = cloneState ringAB ∧
          (pairRemoveFst (ringAB, cloneState ringAB) L).2 = cloneState ringAB) :=
  C9_clone_observably_equal_independent ringAB
    (Reachable.ins (emptyState idHash 2 1) ["A", "B"] (Reachable.empty idHash 2 1))

theorem makeVnodes_map_name (hash : Bytes → Bytes) (vnc : Nat) (n : Node) :
    (makeVnodes hash vnc n).map (·.name) = nodeNames hash vnc n := by
  unfold makeVnodes nodeNames
  rw [List.map_map]
  rfl

theorem flatMap_makeVnodes_names (hash : Bytes → Bytes) (vnc : Nat) (L : List Node) :
    (L.flatMap (makeVnodes hash vnc)).map (·.name) = L.flatMap (nodeNames hash vnc) := by
  rw [List.map_flatMap]
  simp only [makeVnodes_map_name]

theorem insert_eq_ok {s : HashRingState} {L : List Node} {vns2 news : List VirtualNode}
    (h : insertAll s.hash s.virtualNodeCount L s.virtualNodes = .ok (vns2, news)) :
    s.insert L = .ok (fixOwners { s with virtualNodes := vns2 }, news) := by
  unfold HashRingState.insert
  rw [h]

theorem remove_eq_ok {s : HashRingState} {L : List Node} {vns3 rem : List VirtualNode}
    (h : removeNames (L.flatMap (nodeNames s.hash s.virtualNodeCount)) s.virtualNodes
      = some (vns3, rem)) :
    s.remove L = .ok (fixOwners { s with virtualNodes := vns3 }, rem) := by
  unfold HashRingState.remove
  rw [h]

theorem ringInsert_eq {s : HashRingState} {L : List Node} {s2 : HashRingState}
    {news : List VirtualNode} (h : s.insert L = .ok (s2, news)) :
    ringInsert s L = (s2, .ok news) := by
  unfold ringInsert
  rw [h]

theorem ringRemove_eq {s : HashRingState} {L : List Node} {s2 : HashRingState}
    {rem : List VirtualNode} (h : s.remove L = .ok (s2, rem)) :
    ringRemove s L = (s2, .ok rem) := by
  unfold ringRemove
  rw [h]

theorem ringInsert_eq_error {s : HashRingState} {L : List Node} {e : String}
    (h : s.insert L = .error e) : ringInsert s L = (s, .error e) := by
  unfold ringInsert
  rw [h]

theorem ringRemove_eq_error {s : HashRingState} {L : List Node} {e : String}
    (h : s.remove L = .error e) : ringRemove s L = (s, .error e) := by
  unfold ringRemove
  rw [h]

/-- C3: on every sorted ring state, inserting a duplicate-free batch of nodes
none of which is present, then removing the same batch, succeeds and yields a
state whose sequence of virtual-node names equals the original one. -/
theorem C3_insert_remove_roundtrip (s : HashRingState) (L : List Node)
    (hsort : List.Sorted vnLe s.virtualNodes) (hnd : L.Nodup)
    (hfresh : ∀ n ∈ L, n ∉ s.virtualNodes.map (·.node)) :
    ∃ s2 news s3 rem,
      ringInsert s L = (s2, .ok news) ∧ ringRemove s2 L = (s3, .ok rem) ∧
      s3.virtualNodes.map (·.name) = s.virtualNodes.map (·.name) := by
  obtain ⟨vns2, hia⟩ :=
    insertAll_ok_of_fresh s.hash s.virtualNodeCount L s.virtualNodes hnd hfresh
  have hperm2 := (insertAll_ok_charac s.hash s.virtualNodeCount L s.virtualNodes vns2 _ hia).2
  have hsort2 := insertAll_ok_sorted s.hash s.virtualNodeCount L s.virtualNodes vns2 _ hia hsort
  have hnames2 : (↑(vns2.map (·.name)) : Multiset Bytes)
      = ↑(s.virtualNodes.map (·.name)) + ↑(L.flatMap (nodeNames s.hash s.virtualNodeCount)) := by
    rw [Multiset.coe_add, Multiset.coe_eq_coe]
    have hm := hperm2.map (·.name)
    rw [List.map_append, flatMap_makeVnodes_names] at hm
    exact hm
  have hle : (↑(L.flatMap (nodeNames s.hash s.virtualNodeCount)) : Multiset Bytes)
      ≤ ↑(vns2.map (·.name)) := by
    rw [hnames2]
    exact Multiset.le_add_left _ _
  obtain ⟨vns3, rem, hrn, _, hms⟩ :=
    removeNames_ok_subperm (L.flatMap (nodeNames s.hash s.virtualNodeCount)) vns2 hle
  have hins : s.insert L = .ok (fixOwners { s with virtualNodes := vns2 },
      L.flatMap (makeVnodes s.hash s.virtualNodeCount)) := insert_eq_ok hia
  have hrem : (fixOwners { s with virtualNodes := vns2 }).remove L
      = .ok (fixOwners { (fixOwners { s with virtualNodes := vns2 }) with
          virtualNodes := vns3 }, rem) := remove_eq_ok hrn
  refine ⟨_, _, _, _, ringInsert_eq hins, ringRemove_eq hrem, ?_⟩
  have hcancel : (↑(vns3.map (·.name)) : Multiset Bytes)
      = ↑(s.virtualNodes.map (·.name)) := by
    rw [hnames2] at hms
    rw [add_comm (↑(L.flatMap (nodeNames s.hash s.virtualNodeCount)) : Multiset Bytes)
      (↑(vns3.map (·.name)) : Multiset Bytes)] at hms
    exact (add_right_cancel hms.symm)
  have hperm3 : (vns3.map (·.name)).Perm (s.virtualNodes.map (·.name)) :=
    Multiset.coe_eq_coe.1 hcancel
  have hsort3 : List.Sorted bLe (vns3.map (·.name)) :=
    List.Pairwise.map _ (fun _ _ h => h)
      (List.Pairwise.sublist (removeNames_sublist _ _ _ _ hrn) hsort2)
  have hsortS : List.Sorted bLe (s.virtualNodes.map (·.name)) :=
    List.Pairwise.map _ (fun _ _ h => h) hsort
  exact List.eq_of_perm_of_sorted hperm3 hsort3 hsortS

theorem C3_insert_remove_roundtrip_witness :
    ∃ s2 news s3 rem,
      ringInsert (emptyState idHash 2 1) ["A", "B"] = (s2, .ok news) ∧
      ringRemove s2 ["A", "B"] = (s3, .ok rem) ∧
      s3.virtualNodes.map (·.name) = (emptyState idHash 2 1).virtualNodes.map (·.name) :=
  C3_insert_remove_roundtrip (emptyState idHash 2 1) ["A", "B"]
    (by decide) (by decide) (by decide)

/-- Invariant of well-formed states: every virtual node carries the name
regenerated from its owner and sequence number, with a sequence number below
the configured per-node virtual-node count. -/
def WellFormed (s : HashRingState) : Prop :=
  ∀ vn ∈ s.virtualNodes, vn.name = vnodeName s.hash vn.node vn.vnid ∧
    vn.vnid < s.virtualNodeCount

/-- The hash function separates the ring positions of different distinct
nodes (hash collisions are a fatal configuration error per the spec, not a
supported input). -/
def HashInjOn (hash : Bytes → Bytes) (vnc : Nat) : Prop :=
  ∀ n1 k1 n2 k2, k1 < vnc → k2 < vnc →
    vnodeName hash n1 k1 = vnodeName hash n2 k2 → n1 = n2

theorem insert_error_of_dup {s : HashRingState} {L : List Node}
    (h : ∃ n ∈ L, n ∈ s.virtualNodes.map (·.node)) : ∃ e, s.insert L = .error e := by
  obtain ⟨e, he⟩ := insertAll_error_of_dup s.hash s.virtualNodeCount L s.virtualNodes h
  refine ⟨e, ?_⟩
  unfold HashRingState.insert
  rw [he]

theorem removeNames_append_none {ys : List Bytes} : ∀ {xs : List Bytes}
    {vns : List VirtualNode}, removeNames xs vns = none →
    removeNames (xs ++ ys) vns = none := by
  intro xs
  induction xs with
  | nil => intro vns h; simp only [removeNames] at h; cases h
  | cons nm rest ih =>
    intro vns h
    cases hro : removeOne nm vns with
    | none => simp only [List.cons_append, removeNames, hro]
    | some p =>
      obtain ⟨x, zs⟩ := p
      cases hrn : removeNames rest zs with
      | none =>
        simp only [List.cons_append, removeNames, hro]
        have hih : removeNames (rest.append ys) zs = none := ih hrn
        rw [hih]
      | some q =>
        obtain ⟨a, b⟩ := q
        rw [show removeNames (nm :: rest) vns = some (a, x :: b) by
          simp only [removeNames, hro, hrn]] at h
        cases h

theorem removeNames_append_step {ys : List Bytes} : ∀ {xs : List Bytes}
    {vns v2 r : List VirtualNode}, removeNames xs vns = some (v2, r) →
    removeNames (xs ++ ys) vns
      = (removeNames ys v2).map (fun q => (q.1, r ++ q.2)) := by
  intro xs
  induction xs with
  | nil =>
    intro vns v2 r h
    simp only [removeNames] at h
    cases h
    simp only [List.nil_append]
    cases hq : removeNames ys vns with
    | none => rfl
    | some q => simp
  | cons nm rest ih =>
    intro vns v2 r h
    cases hro : removeOne nm vns with
    | none =>
      rw [show removeNames (nm :: rest) vns = none by simp only [removeNames, hro]] at h
      cases h
    | some p =>
      obtain ⟨x, zs⟩ := p
      cases hrn : removeNames rest zs with
      | none =>
        rw [show removeNames (nm :: rest) vns = none by
          simp only [removeNames, hro, hrn]] at h
        cases h
      | some q =>
        obtain ⟨a, b⟩ := q
        rw [show removeNames (nm :: rest) vns = some (a, x :: b) by
          simp only [removeNames, hro, hrn]] at h
        cases h
        have hih := ih hrn
        rw [List.cons_append]
        rw [show removeNames (nm :: (rest ++ ys)) vns
            = match removeNames (rest ++ ys) zs with
              | none => none
              | some (zs2, rem2) => some (zs2, x :: rem2) by
          simp only [removeNames, hro]]
        rw [hih]
        cases hq : removeNames ys v2 with
        | none => rfl
        | some q2 => simp

theorem removeNames_missing_node {hash : Bytes → Bytes} {vnc : Nat}
    (hinj : HashInjOn hash vnc) (hvnc : 1 ≤ vnc) (vns : List VirtualNode)
    (hwf : ∀ vn ∈ vns, vn.name = vnodeName hash vn.node vn.vnid ∧ vn.vnid < vnc)
    (n : Node) (hmiss : n ∉ vns.map (·.node)) :
    removeNames (nodeNames hash vnc n) vns = none := by
  have hnotin : vnodeName hash n 0 ∉ vns.map (·.name) := by
    intro hmem
    obtain ⟨vn, hvn, hname⟩ := List.mem_map.1 hmem
    obtain ⟨hw1, hw2⟩ := hwf vn hvn
    have heq : vnodeName hash vn.node vn.vnid = vnodeName hash n 0 := hw1 ▸ hname
    have hnn : vn.node = n := hinj vn.node vn.vnid n 0 hw2 hvnc heq
    exact hmiss (List.mem_map.2 ⟨vn, hvn, hnn⟩)
  obtain ⟨tl, htl⟩ : ∃ tl, nodeNames hash vnc n = vnodeName hash n 0 :: tl := by
    unfold nodeNames
    cases vnc with
    | zero => omega
    | succ m => exact ⟨_, by rw [List.range_succ_eq_map, List.map_cons]⟩
  rw [htl]
  have hro : removeOne (vnodeName hash n 0) vns = none := (removeOne_none_iff _ _).2 hnotin
  simp only [removeNames, hro]

theorem removeNames_flatMap_none {hash : Bytes → Bytes} {vnc : Nat}
    (hinj : HashInjOn hash vnc) (hvnc : 1 ≤ vnc) :
    ∀ (L : List Node) (vns : List VirtualNode),
    (∀ vn ∈ vns, vn.name = vnodeName hash vn.node vn.vnid ∧ vn.vnid < vnc) →
    (∃ n ∈ L, n ∉ vns.map (·.node)) →
    removeNames (L.flatMap (nodeNames hash vnc)) vns = none := by
  intro L
  induction L with
  | nil => rintro vns _ ⟨n, hn, _⟩; simp at hn
  | cons m rest ih =>
    rintro vns hwf ⟨n, hn, hmiss⟩
    rw [List.flatMap_cons]
    rcases List.mem_cons.1 hn with he | hr
    · subst he
      exact removeNames_append_none (removeNames_missing_node hinj hvnc vns hwf n hmiss)
    · cases hblock : removeNames (nodeNames hash vnc m) vns with
      | none => exact removeNames_append_none hblock
      | some p =>
        obtain ⟨v2, r⟩ := p
        have hsub := removeNames_sublist _ _ _ _ hblock
        have hwf2 : ∀ vn ∈ v2, vn.name = vnodeName hash vn.node vn.vnid ∧ vn.vnid < vnc :=
          fun vn hv => hwf vn (hsub.subset hv)
        have hmiss2 : n ∉ v2.map (·.node) := by
          intro hmem
          obtain ⟨vn, hvn, hnn⟩ := List.mem_map.1 hmem
          exact hmiss (List.mem_map.2 ⟨vn, hsub.subset hvn, hnn⟩)
        rw [removeNames_append_step hblock, ih v2 hwf2 ⟨n, hr, hmiss2⟩]
        rfl

theorem remove_error_of_missing {s : HashRingState} {L : List Node}
    (hwf : WellFormed s) (hinj : HashInjOn s.hash s.virtualNodeCount)
    (hvnc : 1 ≤ s.virtualNodeCount)
    (h : ∃ n ∈ L, n ∉ s.virtualNodes.map (·.node)) :
    s.remove L = .error errNotFound := by
  have hnone := removeNames_flatMap_none hinj hvnc L s.virtualNodes hwf h
  unfold HashRingState.remove
  rw [hnone]

/-- C5: on every well-formed ring with a collision-free hash, an Insert batch
containing a node that already owns virtual nodes fails with an error and
publishes exactly the state from before the call, and a Remove batch
containing a node that owns no virtual nodes fails with an error and
publishes exactly the state from before the call (all-or-nothing). -/
theorem C5_failed_batch_leaves_ring_untouched (s : HashRingState) (L : List Node)
    (hwf : WellFormed s) (hinj : HashInjOn s.hash s.virtualNodeCount)
    (hvnc : 1 ≤ s.virtualNodeCount) :
    ((∃ n ∈ L, n ∈ s.virtualNodes.map (·.node)) →
      (∃ e, (ringInsert s L).2 = .error e) ∧ (ringInsert s L).1 = s) ∧
    ((∃ n ∈ L, n ∉ s.virtualNodes.map (·.node)) →
      (∃ e, (ringRemove s L).2 = .error e) ∧ (ringRemove s L).1 = s) := by
  constructor
  · intro h
    obtain ⟨e, he⟩ := insert_error_of_dup h
    rw [ringInsert_eq_error he]
    exact ⟨⟨e, rfl⟩, rfl⟩
  · intro h
    have he := remove_error_of_missing hwf hinj hvnc h
    rw [ringRemove_eq_error he]
    exact ⟨⟨errNotFound, rfl⟩, rfl⟩

theorem uint32_toNat_injective (a b : UInt32) (h : a.toNat = b.toNat) : a = b :=
  UInt32.toNat.inj h

theorem char_toNat_injective (a b : Char) (h : a.toNat = b.toNat) : a = b :=
  Char.eq_of_val_eq (uint32_toNat_injective _ _ h)

theorem encodeNode_injective : Function.Injective encodeNode := by
  intro a b h
  unfold encodeNode at h
  have hc : a.toList = b.toList :=
    List.map_injective_iff.2 (fun x y hxy => char_toNat_injective x y hxy) h
  exact String.ext (by simpa [String.toList] using hc)

theorem idHash_injOn_one : HashInjOn idHash 1 := by
  intro n1 k1 n2 k2 h1 h2 heq
  interval_cases k1
  interval_cases k2
  have heq2 : encodeNode n1 ++ encodeSeq 0 = encodeNode n2 ++ encodeSeq 0 := heq
  exact encodeNode_injective (List.append_cancel_right heq2)

theorem C5_failed_batch_leaves_ring_untouched_witness :
    ((∃ e, (ringInsert ringA ["A", "B"]).2 = .error e) ∧ (ringInsert ringA ["A", "B"]).1 = ringA) ∧
    ((∃ e, (ringRemove ringA ["A", "B"]).2 = .error e) ∧ (ringRemove ringA ["A", "B"]).1 = ringA) := by
  have h := C5_failed_batch_leaves_ring_untouched ringA ["A", "B"]
    (by unfold WellFormed; decide) idHash_injOn_one (by decide)
  exact ⟨h.1 ⟨"A", by decide, by decide⟩, h.2 ⟨"B", by decide, by decide⟩⟩

theorem ringInsert_fields (s : HashRingState) (L : List Node) :
    (ringInsert s L).1.hash = s.hash ∧
    (ringInsert s L).1.virtualNodeCount = s.virtualNodeCount ∧
    (ringInsert s L).1.replicationFactor = s.replicationFactor := by
  unfold ringInsert
  cases hins : s.insert L with
  | error e => exact ⟨rfl, rfl, rfl⟩
  | ok p =>
    obtain ⟨s2, news⟩ := p
    obtain ⟨vns2, _, hs2⟩ := insert_ok_dest hins
    subst hs2
    exact ⟨rfl, rfl, rfl⟩

/-- C6: `NewHashRing` returns an invalid-argument error exactly when the hash
function is nil, the replication factor is outside `[1, 255]`, or the
virtual-node count is outside `[1, 65535]`; in the error case no ring is
produced, and otherwise the returned ring stores those configuration values
(and the given hash function). -/
theorem C6_newHashRing_validation (hf : Option (Bytes → Bytes)) (rf vnc : Int)
    (nodes : List Node) :
    ((∃ e, newHashRing hf rf vnc nodes = .error e) ↔
      (hf = none ∨ rf < 1 ∨ 255 < rf ∨ vnc < 1 ∨ 65535 < vnc)) ∧
    (∀ s, newHashRing hf rf vnc nodes = .ok s →
      s.replicationFactor = rf.toNat ∧ s.virtualNodeCount = vnc.toNat ∧
        hf = some s.hash) := by
  cases hf with
  | none =>
    refine ⟨⟨fun _ => Or.inl rfl, fun _ => ⟨"hashFunc cannot be nil", rfl⟩⟩, ?_⟩
    intro s hs
    cases hs
  | some h =>
    by_cases hrf : rf < 1 ∨ 255 < rf
    · constructor
      · refine ⟨fun _ => ?_, fun _ => ?_⟩
        · rcases hrf with h1 | h1
          · exact Or.inr (Or.inl h1)
          · exact Or.inr (Or.inr (Or.inl h1))
        · exact ⟨"replicationFactor not in (0, 256)", by simp only [newHashRing, if_pos hrf]⟩
      · intro s hs
        rw [show newHashRing (some h) rf vnc nodes
            = .error "replicationFactor not in (0, 256)" by
          simp only [newHashRing, if_pos hrf]] at hs
        cases hs
    · by_cases hvc : vnc < 1 ∨ 65535 < vnc
      · constructor
        · refine ⟨fun _ => ?_, fun _ => ?_⟩
          · rcases hvc with h1 | h1
            · exact Or.inr (Or.inr (Or.inr (Or.inl h1)))
            · exact Or.inr (Or.inr (Or.inr (Or.inr h1)))
          · exact ⟨"virtualNodeCount not in (0, 65536)", by
              simp only [newHashRing, if_neg hrf, if_pos hvc]⟩
        · intro s hs
          rw [show newHashRing (some h) rf vnc nodes
              = .error "virtualNodeCount not in (0, 65536)" by
            simp only [newHashRing, if_neg hrf, if_pos hvc]] at hs
          cases hs
      · have hok : newHashRing (some h) rf vnc nodes
            = .ok (ringInsert (emptyState h rf.toNat vnc.toNat) nodes).1 := by
          simp only [newHashRing, if_neg hrf, if_neg hvc]
        constructor
        · constructor
          · rintro ⟨e, he⟩
            rw [hok] at he
            cases he
          · rintro (h1 | h1 | h1 | h1 | h1)
            · cases h1
            · exact absurd (Or.inl h1) hrf
            · exact absurd (Or.inr h1) hrf
            · exact absurd (Or.inl h1) hvc
            · exact absurd (Or.inr h1) hvc
        · intro s hs
          rw [hok] at hs
          cases hs
          obtain ⟨hh, hv, hr⟩ := ringInsert_fields (emptyState h rf.toNat vnc.toNat) nodes
          exact ⟨hr, hv, by rw [hh]; rfl⟩

theorem C6_newHashRing_validation_witness :
    ∃ e, newHashRing none 3 4 [] = .error e :=
  (C6_newHashRing_validation none 3 4 []).1.mpr (Or.inl rfl)

/-- C7 counterexample: `NodesForKey` on a ring with zero virtual nodes does
not return an explicit error value: its `ring.go` signature `[]Node` carries
no error result, and the call returns the nil (empty) slice as if it were a
successful answer. -/
theorem C7_counterexample_nodesForKey_empty_no_error :
    nodesForKey (emptyState idHash 3 4) [0] = [] := rfl

/-- C7 (amended): on a ring with zero virtual nodes, `Predecessor`,
`Successor`, `PredecessorNode` and `SuccessorNode` each return an explicit
error value, while `NodesForKey` — whose signature has no error result —
returns the empty (nil) list. -/
theorem C7_empty_ring_queries_error (s : HashRingState) (key : Bytes)
    (h : s.virtualNodes = []) :
    predecessor s key = .error errEmptyRing ∧
    successor s key = .error errEmptyRing ∧
    predecessorNode s key = .error errEmptyRing ∧
    successorNode s key = .error errEmptyRing ∧
    nodesForKey s key = [] := by
  have hvk : virtualNodeForKey s key = none := by
    unfold virtualNodeForKey keyIndex
    rw [h]
    rfl
  refine ⟨?_, ?_, ?_, ?_, ?_⟩
  · unfold predecessor
    rw [h]
  · unfold successor
    rw [h]
  · unfold predecessorNode
    rw [hvk]
  · unfold successorNode
    rw [hvk]
  · unfold nodesForKey
    rw [hvk]

theorem C7_empty_ring_queries_error_witness :
    predecessor (emptyState idHash 3 4) [0] = .error errEmptyRing ∧
    successor (emptyState idHash 3 4) [0] = .error errEmptyRing ∧
    predecessorNode (emptyState idHash 3 4) [0] = .error errEmptyRing ∧
    successorNode (emptyState idHash 3 4) [0] = .error errEmptyRing ∧
    nodesForKey (emptyState idHash 3 4) [0] = [] :=
  C7_empty_ring_queries_error (emptyState idHash 3 4) [0] rfl

/-- C10: a `NewHashRing` call with valid configuration whose initial insert
of the given node list fails (for example a node repeated in the variadic
list) still returns a ring and a nil error: the insert error is discarded at
ring.go:105-107 and the pre-insert (empty) state is published. -/
theorem C10_newHashRing_discards_insert_error (h : Bytes → Bytes) (rf vnc : Int)
    (nodes : List Node) (hrf1 : 1 ≤ rf) (hrf2 : rf ≤ 255) (hvc1 : 1 ≤ vnc)
    (hvc2 : vnc ≤ 65535) (e : String)
    (hfail : (emptyState h rf.toNat vnc.toNat).insert nodes = .error e) :
    newHashRing (some h) rf vnc nodes = .ok (emptyState h rf.toNat vnc.toNat) := by
  have hrf : ¬(rf < 1 ∨ 255 < rf) := by omega
  have hvc : ¬(vnc < 1 ∨ 65535 < vnc) := by omega
  simp only [newHashRing, if_neg hrf, if_neg hvc]
  rw [ringInsert_eq_error hfail]

theorem C10_newHashRing_discards_insert_error_witness :
    newHashRing (some idHash) 1 1 ["A", "A"] = .ok (emptyState idHash 1 1) :=
  C10_newHashRing_discards_insert_error idHash 1 1 ["A", "A"]
    (by decide) (by decide) (by decide) (by decide) errAlreadyIn rfl

theorem distinctNodes_eq_singleton {s : HashRingState} {vn0 : VirtualNode}
    (h : vn0 ∈ s.virtualNodes) (hall : ∀ w ∈ s.virtualNodes, w.node = vn0.node) :
    distinctNodes s = {vn0.node} := by
  unfold distinctNodes
  apply Finset.ext
  intro x
  simp only [List.mem_toFinset, List.mem_map, Finset.mem_singleton]
  constructor
  · rintro ⟨vn, hvn, rfl⟩
    exact hall vn hvn
  · rintro rfl
    exact ⟨vn0, h, rfl⟩

theorem two_distinct_other {s : HashRingState} (hc : (distinctNodes s).card = 2)
    {x y z : Node} (hx : x ∈ s.virtualNodes.map (·.node))
    (hy : y ∈ s.virtualNodes.map (·.node)) (hz : z ∈ s.virtualNodes.map (·.node))
    (hyx : y ≠ x) (hzx : z ≠ x) : y = z := by
  obtain ⟨a, b, hab, hset⟩ := Finset.card_eq_two.1 hc
  have hmx : x ∈ ({a, b} : Finset Node) := by rw [← hset]; exact List.mem_toFinset.2 hx
  have hmy : y ∈ ({a, b} : Finset Node) := by rw [← hset]; exact List.mem_toFinset.2 hy
  have hmz : z ∈ ({a, b} : Finset Node) := by rw [← hset]; exact List.mem_toFinset.2 hz
  simp only [Finset.mem_insert, Finset.mem_singleton] at hmx hmy hmz
  rcases hmx with rfl | rfl
  · rcases hmy with rfl | rfl
    · exact absurd rfl hyx
    · rcases hmz with rfl | rfl
      · exact absurd rfl hzx
      · rfl
  · rcases hmy with rfl | rfl
    · rcases hmz with rfl | rfl
      · rfl
      · exact absurd rfl hzx
    · exact absurd rfl hyx

/-- C8: on a non-empty ring with exactly two distinct nodes, `PredecessorNode`
and `SuccessorNode` each return a virtual node owned by the distinct node
other than the owner of `VirtualNodeForKey(key)`; on a non-empty ring with
exactly one distinct node, both return the single-owner error. -/
theorem C8_predecessorNode_successorNode_owner (s : HashRingState) (key : Bytes)
    (hne : s.virtualNodes ≠ []) :
    ((distinctNodes s).card = 2 →
      ∃ vn0 vp vq, virtualNodeForKey s key = some vn0 ∧
        predecessorNode s key = .ok vp ∧ successorNode s key = .ok vq ∧
        vp.node ≠ vn0.node ∧ vq.node ≠ vn0.node ∧
        vp.node ∈ s.virtualNodes.map (·.node) ∧ vq.node ∈ s.virtualNodes.map (·.node) ∧
        (∀ m ∈ s.virtualNodes.map (·.node), m ≠ vn0.node → m = vp.node ∧ m = vq.node)) ∧
    ((distinctNodes s).card = 1 →
      predecessorNode s key = .error errSingleNode ∧
      successorNode s key = .error errSingleNode) := by
  have hvk := virtualNodeForKey_getD s key hne
  set vn0 := s.virtualNodes.getD (keyIndex s key) default with hvn0
  have hlt := keyIndex_lt s key hne
  have hmem0 : vn0 ∈ s.virtualNodes := by
    rw [hvn0, List.getD_eq_getElem?_getD, List.getElem?_eq_getElem hlt]
    exact List.getElem_mem hlt
  have hpn : predecessorNode s key =
      (match ((s.virtualNodes.rotate (keyIndex s key)).reverse).find?
          (fun vn => vn.node != vn0.node) with
        | some vn => .ok vn
        | none => .error errSingleNode) := by
    unfold predecessorNode
    rw [hvk]
  have hsn : successorNode s key =
      (match (s.virtualNodes.rotate (keyIndex s key + 1)).find?
          (fun vn => vn.node != vn0.node) with
        | some vn => .ok vn
        | none => .error errSingleNode) := by
    unfold successorNode
    rw [hvk]
  constructor
  · intro hc2
    have hex : ∃ w ∈ s.virtualNodes, w.node ≠ vn0.node := by
      by_contra hno
      push_neg at hno
      have hsing := distinctNodes_eq_singleton hmem0 hno
      rw [hsing] at hc2
      simp at hc2
    obtain ⟨w, hw, hwne⟩ := hex
    have hfp : (((s.virtualNodes.rotate (keyIndex s key)).reverse).find?
        (fun vn => vn.node != vn0.node)).isSome := by
      rw [List.find?_isSome]
      refine ⟨w, ?_, ?_⟩
      · rw [List.mem_reverse, (List.rotate_perm _ _).mem_iff]
        exact hw
      · simpa using hwne
    have hfq : ((s.virtualNodes.rotate (keyIndex s key + 1)).find?
        (fun vn => vn.node != vn0.node)).isSome := by
      rw [List.find?_isSome]
      refine ⟨w, ?_, ?_⟩
      · rw [(List.rotate_perm _ _).mem_iff]
        exact hw
      · simpa using hwne
    obtain ⟨vp, hvp⟩ := Option.isSome_iff_exists.1 hfp
    obtain ⟨vq, hvq⟩ := Option.isSome_iff_exists.1 hfq
    have hvpne : vp.node ≠ vn0.node := by simpa using List.find?_some hvp
    have hvqne : vq.node ≠ vn0.node := by simpa using List.find?_some hvq
    have hvpmem : vp ∈ s.virtualNodes := by
      have hm := List.mem_of_find?_eq_some hvp
      rwa [List.mem_reverse, (List.rotate_perm _ _).mem_iff] at hm
    have hvqmem : vq ∈ s.virtualNodes := by
      have hm := List.mem_of_find?_eq_some hvq
      rwa [(List.rotate_perm _ _).mem_iff] at hm
    have hvpmap : vp.node ∈ s.virtualNodes.map (·.node) := List.mem_map.2 ⟨vp, hvpmem, rfl⟩
    have hvqmap : vq.node ∈ s.virtualNodes.map (·.node) := List.mem_map.2 ⟨vq, hvqmem, rfl⟩
    have hmap0 : vn0.node ∈ s.virtualNodes.map (·.node) := List.mem_map.2 ⟨vn0, hmem0, rfl⟩
    refine ⟨vn0, vp, vq, hvk, ?_, ?_, hvpne, hvqne, hvpmap, hvqmap, ?_⟩
    · rw [hpn, hvp]
    · rw [hsn, hvq]
    · intro m hm hmne
      exact ⟨two_distinct_other hc2 hmap0 hm hvpmap hmne hvpne,
             two_distinct_other hc2 hmap0 hm hvqmap hmne hvqne⟩
  · intro hc1
    obtain ⟨a, hset⟩ := Finset.card_eq_one.1 hc1
    have hall : ∀ w ∈ s.virtualNodes, w.node = vn0.node := by
      intro w hw
      have hwa : w.node = a := by
        have hmw : w.node ∈ distinctNodes s :=
          List.mem_toFinset.2 (List.mem_map.2 ⟨w, hw, rfl⟩)
        rw [hset] at hmw
        simpa using hmw
      have h0a : vn0.node = a := by
        have hm0 : vn0.node ∈ distinctNodes s :=
          List.mem_toFinset.2 (List.mem_map.2 ⟨vn0, hmem0, rfl⟩)
        rw [hset] at hm0
        simpa using hm0
      rw [hwa, h0a]
    have hnp : (((s.virtualNodes.rotate (keyIndex s key)).reverse).find?
        (fun vn => vn.node != vn0.node)) = none := by
      rw [List.find?_eq_none]
      intro x hx
      rw [List.mem_reverse, (List.rotate_perm _ _).mem_iff] at hx
      simp [hall x hx]
    have hnq : ((s.virtualNodes.rotate (keyIndex s key + 1)).find?
        (fun vn => vn.node != vn0.node)) = none := by
      rw [List.find?_eq_none]
      intro x hx
      rw [(List.rotate_perm _ _).mem_iff] at hx
      simp [hall x hx]
    constructor
    · rw [hpn, hnp]
    · rw [hsn, hnq]

theorem C8_predecessorNode_successorNode_owner_witness :
    (∃ vn0 vp vq, virtualNodeForKey ringAB [0] = some vn0 ∧
      predecessorNode ringAB [0] = .ok vp ∧ successorNode ringAB [0] = .ok vq ∧
      vp.node ≠ vn0.node ∧ vq.node ≠ vn0.node ∧
      vp.node ∈ ringAB.virtualNodes.map (·.node) ∧
      vq.node ∈ ringAB.virtualNodes.map (·.node) ∧
      (∀ m ∈ ringAB.virtualNodes.map (·.node), m ≠ vn0.node →
        m = vp.node ∧ m = vq.node)) ∧
    (predecessorNode ringA [0] = .error errSingleNode ∧
      successorNode ringA [0] = .error errSingleNode) :=
  ⟨(C8_predecessorNode_successorNode_owner ringAB [0] (by decide)).1 (by decide),
   (C8_predecessorNode_successorNode_owner ringA [0] (by decide)).2 (by decide)⟩
